/-
Verification of pwtrainer.py (Really Simple Password Trainer v1.8)
against its natural-language specification.

Shallow embedding conventions:
- Python floats (wall-clock timestamps, deltas, limits on means) are
  modelled as exact rationals `ℚ`; the one genuinely real-valued
  quantity, the standard deviation `sqrt(total/len)`, lives in `ℝ`
  via `Real.sqrt`.
- Python strings are `List Char`; `ord` is `Char.toNat`.
- Code paths that raise (`ZeroDivisionError` in `mean`, the
  `EOFError` handler in `main`) are modelled with `Except String` /
  explicit result records rather than silent total functions.
- The character stream feeding `read_char` together with the
  timestamps produced by `time()` is modelled as a `List (Char × ℚ)`;
  an exhausted stream is the `none` outcome.
-/
import Mathlib

namespace PwTrainer

/-! ### Class contents (globals `c_normal`, `c_capital`, `c_number`) -/

def c_normal : List Char :=
  ['a','b','c','d','e','f','g','h','i','j','k','l','m',
   'n','o','p','q','r','s','t','u','v','w','x','y','z']

def c_capital : List Char := c_normal.map Char.toUpper

def c_number : List Char := ['0','1','2','3','4','5','6','7','8','9']

/-! ### `read_password`

`read_password` reads characters until code 13 (Enter) or code 3
(cancel), stamping a time after every read (terminator included),
accumulating every non-Enter character into the entry, and finally
converting the `N` stamps into `N-1` consecutive differences. -/

/-- The `times` → `rtimes` conversion at the end of `read_password`:
`rtimes[i] = times[i+1] - times[i]`, empty when fewer than two stamps. -/
def mkDeltas (times : List ℚ) : List ℚ :=
  if 2 ≤ times.length then List.zipWith (fun a b => a - b) times.tail times
  else []

/-- The read loop of `read_password`, over the remaining input stream,
carrying the accumulated timestamps and entry.  Returns the entry, the
delta list, and the unconsumed stream; `none` models the stream closing
mid-read. -/
def readPasswordAux :
    List (Char × ℚ) → List ℚ → List Char →
    Option ((List Char × List ℚ) × List (Char × ℚ))
  | [], _, _ => none
  | (c, t) :: rest, times, pw =>
    let times' := times ++ [t]
    let pw' := if c.toNat ≠ 13 then pw ++ [c] else pw
    if c.toNat = 13 ∨ c.toNat = 3 then some ((pw', mkDeltas times'), rest)
    else readPasswordAux rest times' pw'

/-- `read_password`, returning the `(pw, rtimes)` pair and the rest of
the input stream. -/
def readPasswordRest (input : List (Char × ℚ)) :
    Option ((List Char × List ℚ) × List (Char × ℚ)) :=
  readPasswordAux input [] []

/-- Just the `(pw, rtimes)` tuple returned by `read_password`. -/
def read_password (input : List (Char × ℚ)) : Option (List Char × List ℚ) :=
  (readPasswordRest input).map Prod.fst

/-! ### Reference-password profile (class analysis in `main`) -/

/-- The four class counters of `main`'s analysis loop. -/
structure ClassCounts where
  normal : ℕ
  capital : ℕ
  number : ℕ
  special : ℕ
deriving DecidableEq, Repr

/-- The `for c in pwh` if/elif classification loop. -/
def classCounts (pwh : List Char) : ClassCounts :=
  pwh.foldl
    (fun a c =>
      if c ∈ c_normal then { a with normal := a.normal + 1 }
      else if c ∈ c_capital then { a with capital := a.capital + 1 }
      else if c ∈ c_number then { a with number := a.number + 1 }
      else { a with special := a.special + 1 })
    ⟨0, 0, 0, 0⟩

/-- `class_count`: number of character classes present. -/
def class_count (pwh : List Char) : ℕ :=
  let a := classCounts pwh
  (if 0 < a.number then 1 else 0) + (if 0 < a.normal then 1 else 0) +
  (if 0 < a.capital then 1 else 0) + (if 0 < a.special then 1 else 0)

/-- `class_depth`: sum of alphabet sizes of the classes present. -/
def class_depth (pwh : List Char) : ℕ :=
  let a := classCounts pwh
  c_number.length * (if 0 < a.number then 1 else 0) +
  c_normal.length * (if 0 < a.normal then 1 else 0) +
  c_capital.length * (if 0 < a.capital then 1 else 0) +
  33 * (if 0 < a.special then 1 else 0)

/-- `combinations = class_depth ** pw_length` (exact integer power). -/
def combinations (pwh : List Char) : ℕ :=
  class_depth pwh ^ pwh.length

/-! ### `mean`, `std`, `calculate_timing_analysis`,
`show_timing_analysis`, `is_good_enough_timing` -/

/-- Python's `sum(t)` (left fold from 0). -/
def pySum (t : List ℚ) : ℚ := t.foldl (· + ·) 0

/-- `mean(t) = sum(t) / len(t)`; on an empty list the division raises
`ZeroDivisionError`. -/
def mean (t : List ℚ) : Except String ℚ :=
  if t.length = 0 then .error "ZeroDivisionError"
  else .ok (pySum t / t.length)

/-- The accumulation loop of `std`: `total = Σ (v - m)^2`. -/
def sqTotal (t : List ℚ) (m : ℚ) : ℚ :=
  t.foldl (fun total v => total + (v - m) ^ 2) 0

/-- `std(t) = sqrt(total / len(t))` where `total = Σ (v - mean t)^2`;
fails exactly when `mean` does. -/
noncomputable def std (t : List ℚ) : Except String ℝ :=
  match mean t with
  | .error e => .error e
  | .ok m => .ok (Real.sqrt ((sqTotal t m / (t.length : ℚ) : ℚ) : ℝ))

/-- Python's `min(t)` for a non-empty list (left fold over the tail). -/
def listMin : List ℚ → ℚ
  | [] => 0
  | h :: r => r.foldl min h

/-- Python's `max(t)` for a non-empty list (left fold over the tail). -/
def listMax : List ℚ → ℚ
  | [] => 0
  | h :: r => r.foldl max h

/-- One `[meanvalue, minvalue, maxvalue, stdvalue]` row of
`calculate_timing_analysis`. -/
structure TRow where
  meanv : ℚ
  minv : ℚ
  maxv : ℚ
  stdv : ℝ

/-- The loop body of `calculate_timing_analysis` for one element `t` of
the `timing` list: `mean`, `min`, `max`, `std` of `t`, in that order. -/
noncomputable def calcRow (t : List ℚ) : Except String TRow :=
  match mean t with
  | .error e => .error e
  | .ok m =>
    match std t with
    | .error e => .error e
    | .ok s => .ok ⟨m, listMin t, listMax t, s⟩

/-- `calculate_timing_analysis(timing)`: one row per element of
`timing`, in order; the first raising row aborts the whole call. -/
noncomputable def calculate_timing_analysis :
    List (List ℚ) → Except String (List TRow)
  | [] => .ok []
  | t :: rest =>
    match calcRow t with
    | .error e => .error e
    | .ok row =>
      match calculate_timing_analysis rest with
      | .error e => .error e
      | .ok rows => .ok (row :: rows)

/-- `show_timing_analysis(timing)`: the printed table, one line per row
of `calculate_timing_analysis`, carrying the 1-based index. -/
noncomputable def show_timing_analysis (timing : List (List ℚ)) :
    Except String (List (ℕ × TRow)) :=
  match calculate_timing_analysis timing with
  | .error e => .error e
  | .ok ta => .ok (ta.enum.map (fun p => (p.1 + 1, p.2)))

/-- `is_good_enough_timing(timing, mean_lim, std_lim, history_count)`.
Returns `False` outright when fewer than `history_count` entries exist;
otherwise averages the mean column and the std column of the last
`history_count` rows of the analysis and compares both strictly against
the limits.  `history_count = 0` reaches a division by zero (after the
analysis has been computed, matching Python's evaluation order). -/
noncomputable def is_good_enough_timing (timing : List (List ℚ))
    (mean_lim : ℚ) (std_lim : ℝ) (history_count : ℕ) :
    Except String Prop :=
  if timing.length < history_count then .ok False
  else
    match calculate_timing_analysis timing with
    | .error e => .error e
    | .ok ta =>
      if history_count = 0 then .error "ZeroDivisionError"
      else
        let last := ta.drop (ta.length - history_count)
        let mean_mean : ℚ := (last.map TRow.meanv).sum / history_count
        let mean_std : ℝ := (last.map TRow.stdv).sum / history_count
        .ok (mean_std < std_lim ∧ mean_mean < mean_lim)

/-! ### The session (`main`) -/

/-- How the session ends: `eof` is the `EOFError` handler at the
outermost scope, `exitRequested` the cancel-during-reference exit,
`tooShort` the short-reference exit, `completed` the normal fall
through after the loop (required corrects, attempt limit or
convergence), `cancelled` the in-loop cancel `break` (which still
reaches the summary), `crashed` an uncaught arithmetic error. -/
inductive Ending
  | eof | exitRequested | tooShort | completed | cancelled | crashed
deriving DecidableEq, Repr

/-- Observable outcome of a `main` run: process exit status, whether
the `Terminated by EOF` notice was printed, whether the statistics
summary was printed, and the final session counters/history. -/
structure MainResult where
  ending : Ending
  exitCode : ℕ
  eofNotice : Bool
  summaryShown : Bool
  correct : ℕ
  incorrect : ℕ
  correct_times : List (List ℚ)

/-- The code after the training loop: re-evaluate
`is_good_enough_timing` (for the quality message), print the completion
line, and `show_timing_analysis`; an arithmetic error in either is an
uncaught exception (non-zero exit, no summary). -/
noncomputable def finish (e : Ending) (ml : ℚ) (sl : ℝ)
    (correct incorrect : ℕ) (ct : List (List ℚ)) : MainResult :=
  match is_good_enough_timing ct ml sl 5 with
  | .error _ => ⟨.crashed, 1, false, false, correct, incorrect, ct⟩
  | .ok _ =>
    match show_timing_analysis ct with
    | .error _ => ⟨.crashed, 1, false, false, correct, incorrect, ct⟩
    | .ok _ => ⟨e, 0, false, true, correct, incorrect, ct⟩

/-- Result of one evaluation of the `while` condition plus (when it
holds) one loop body: either the session is over, or the loop
continues with updated counters, history and input stream. -/
inductive StepRes
  | done (r : MainResult)
  | cont (correct incorrect : ℕ) (ct : List (List ℚ))
         (rest : List (Char × ℚ))

open scoped Classical in
/-- One iteration of `main`'s training loop, condition included:
`while correct < required_correct and correct+incorrect < limit and
not is_good_enough_timing(...)`, then read an attempt and classify it
as correct / cancel / incorrect. -/
noncomputable def loopStep (rc : ℕ) (ml : ℚ) (sl : ℝ) (pwh : List Char)
    (correct incorrect : ℕ) (ct : List (List ℚ))
    (input : List (Char × ℚ)) : StepRes :=
  if correct < rc ∧ correct + incorrect < 100 then
    match is_good_enough_timing ct ml sl 5 with
    | .error _ => .done ⟨.crashed, 1, false, false, correct, incorrect, ct⟩
    | .ok p =>
      if p then .done (finish .completed ml sl correct incorrect ct)
      else
        match readPasswordRest input with
        | none => .done ⟨.eof, 0, true, false, correct, incorrect, ct⟩
        | some ((pw, timing), rest) =>
          if pw = pwh then .cont (correct + 1) incorrect (ct ++ [timing]) rest
          else if pw.length = 1 ∧ (pw.headD 'A').toNat = 3 then
            .done (finish .cancelled ml sl correct incorrect ct)
          else .cont correct (incorrect + 1) ct rest
  else .done (finish .completed ml sl correct incorrect ct)

theorem readPasswordAux_rest_length :
    ∀ (input : List (Char × ℚ)) (times : List ℚ) (pw pw' : List Char)
      (d : List ℚ) (rest : List (Char × ℚ)),
    readPasswordAux input times pw = some ((pw', d), rest) →
    rest.length < input.length := by
  intro input
  induction input with
  | nil => intro times pw pw' d rest h; simp [readPasswordAux] at h
  | cons head tail ih =>
    intro times pw pw' d rest h
    obtain ⟨c, t⟩ := head
    simp only [readPasswordAux] at h
    split at h
    · simp only [Option.some.injEq, Prod.mk.injEq] at h
      obtain ⟨-, rfl⟩ := h
      simp
    · exact Nat.lt_succ_of_lt (ih _ _ _ _ _ h)

theorem loopStep_cont_length (rc : ℕ) (ml : ℚ) (sl : ℝ) (pwh : List Char)
    (correct incorrect : ℕ) (ct : List (List ℚ)) (input : List (Char × ℚ))
    (c' i' : ℕ) (ct' : List (List ℚ)) (rest : List (Char × ℚ))
    (h : loopStep rc ml sl pwh correct incorrect ct input = .cont c' i' ct' rest) :
    rest.length < input.length := by
  unfold loopStep at h
  split at h
  · split at h
    · exact absurd h (by simp)
    · split at h
      · exact absurd h (by simp)
      · split at h
        · exact absurd h (by simp)
        · rename_i heq
          split at h
          · cases h
            exact readPasswordAux_rest_length _ _ _ _ _ _ heq
          · split at h
            · exact absurd h (by simp)
            · cases h
              exact readPasswordAux_rest_length _ _ _ _ _ _ heq
  · exact absurd h (by simp)

/-- `main`'s training loop, iterated to completion. -/
noncomputable def trainLoop (rc : ℕ) (ml : ℚ) (sl : ℝ) (pwh : List Char)
    (correct incorrect : ℕ) (ct : List (List ℚ))
    (input : List (Char × ℚ)) : MainResult :=
  match h : loopStep rc ml sl pwh correct incorrect ct input with
  | .done r => r
  | .cont c' i' ct' rest => trainLoop rc ml sl pwh c' i' ct' rest
termination_by input.length
decreasing_by exact loopStep_cont_length _ _ _ _ _ _ _ _ _ _ _ _ h

/-- `main`: read the reference, handle the cancel / too-short exits,
then run the training loop.  The `none` outcome of a read models the
stream closing, caught by the `except EOFError` handler: it prints the
termination notice and calls `exit(0)` without reaching the summary. -/
noncomputable def pwmain (rc : ℕ) (ml : ℚ) (sl : ℝ)
    (input : List (Char × ℚ)) : MainResult :=
  match readPasswordRest input with
  | none => ⟨.eof, 0, true, false, 0, 0, []⟩
  | some ((pwh, _timing), rest) =>
    if 0 < pwh.length ∧ (pwh.getLastD 'A').toNat = 3 then
      ⟨.exitRequested, 0, false, false, 0, 0, []⟩
    else if pwh.length < 2 then ⟨.tooShort, 0, false, false, 0, 0, []⟩
    else trainLoop rc ml sl pwh 0 0 [] rest

/-! ### Characterization of `read_password` -/

theorem mkDeltas_length (times : List ℚ) :
    (mkDeltas times).length = times.length - 1 := by
  unfold mkDeltas
  split
  · rename_i h
    simp only [List.length_zipWith, List.length_tail]
    omega
  · rename_i h
    simp only [List.length_nil]
    omega

/-- Running the read loop over a clean prefix (no Enter, no cancel)
followed by a terminator character: the entry collects the whole
prefix, the terminator is appended exactly when it is the cancel
character, every read (terminator included) contributes a timestamp,
and the input after the terminator is left unconsumed. -/
theorem readPasswordAux_append (pre : List (Char × ℚ)) :
    ∀ (c : Char) (t : ℚ) (rest : List (Char × ℚ)) (times : List ℚ)
      (pw : List Char),
    (∀ x ∈ pre, x.1.toNat ≠ 13 ∧ x.1.toNat ≠ 3) →
    (c.toNat = 13 ∨ c.toNat = 3) →
    readPasswordAux (pre ++ (c, t) :: rest) times pw =
      some ((pw ++ pre.map Prod.fst ++ (if c.toNat = 13 then [] else [c]),
             mkDeltas (times ++ pre.map Prod.snd ++ [t])), rest) := by
  induction pre with
  | nil =>
    intro c t rest times pw _ hterm
    simp only [List.nil_append, readPasswordAux, List.map_nil,
      List.append_nil]
    rw [if_pos hterm]
    rcases hterm with h13 | h3
    · simp [h13]
    · have h13 : c.toNat ≠ 13 := by omega
      simp [h13]
  | cons head tail ih =>
    intro c t rest times pw hclean hterm
    obtain ⟨c₀, t₀⟩ := head
    obtain ⟨hc13, hc3⟩ : c₀.toNat ≠ 13 ∧ c₀.toNat ≠ 3 :=
      hclean (c₀, t₀) (List.mem_cons_self _ _)
    simp only [List.cons_append, readPasswordAux, List.append_eq]
    rw [if_neg (by omega), if_pos hc13]
    rw [ih c t rest (times ++ [t₀]) (pw ++ [c₀])
      (fun x hx => hclean x (List.mem_cons_of_mem _ hx)) hterm]
    simp [List.append_assoc]

/-- Conversely, every successful run of the read loop arises that way:
the consumed input is a clean prefix followed by a terminator. -/
theorem readPasswordAux_some_inv (input : List (Char × ℚ)) :
    ∀ (times : List ℚ) (pw pw' : List Char) (d : List ℚ)
      (rest : List (Char × ℚ)),
    readPasswordAux input times pw = some ((pw', d), rest) →
    ∃ pre c t, input = pre ++ (c, t) :: rest ∧
      (∀ x ∈ pre, x.1.toNat ≠ 13 ∧ x.1.toNat ≠ 3) ∧
      (c.toNat = 13 ∨ c.toNat = 3) ∧
      pw' = pw ++ pre.map Prod.fst ++ (if c.toNat = 13 then [] else [c]) ∧
      d = mkDeltas (times ++ pre.map Prod.snd ++ [t]) := by
  induction input with
  | nil => intro times pw pw' d rest h; simp [readPasswordAux] at h
  | cons head tail ih =>
    intro times pw pw' d rest h
    obtain ⟨c, t⟩ := head
    simp only [readPasswordAux] at h
    split at h
    · rename_i hterm
      simp only [Option.some.injEq, Prod.mk.injEq] at h
      obtain ⟨⟨hpw, hd⟩, hrest⟩ := h
      refine ⟨[], c, t, by simp [hrest], by simp, hterm, ?_, ?_⟩
      · rcases hterm with h13 | h3
        · rw [if_pos h13, ← hpw, if_neg (by simp [h13])]
          simp
        · have h13 : c.toNat ≠ 13 := by omega
          rw [if_neg h13, ← hpw, if_pos h13]
          simp
      · simpa using hd.symm
    · rename_i hterm
      have hne : c.toNat ≠ 13 ∧ c.toNat ≠ 3 := by
        constructor <;> (intro hh; exact hterm (by omega))
      rw [if_pos hne.1] at h
      obtain ⟨pre, c', t', happ, hclean, hc, hpw, hd⟩ := ih _ _ _ _ _ h
      refine ⟨(c, t) :: pre, c', t', by simp [happ], ?_, hc, ?_, ?_⟩
      · intro x hx
        rcases List.mem_cons.mp hx with rfl | hx
        · exact hne
        · exact hclean x hx
      · rw [hpw]; simp [List.append_assoc]
      · rw [hd]; simp [List.append_assoc]

/-! ### Characterization of the statistics functions -/

theorem pySum_eq_sum (t : List ℚ) : pySum t = t.sum :=
  (List.sum_eq_foldl).symm

theorem foldl_add_sq (t : List ℚ) (m : ℚ) :
    ∀ init : ℚ,
      t.foldl (fun total v => total + (v - m) ^ 2) init =
      init + (t.map (fun v => (v - m) ^ 2)).sum := by
  induction t with
  | nil => intro init; simp
  | cons h r ih =>
    intro init
    simp only [List.foldl_cons, List.map_cons, List.sum_cons, ih]
    ring

theorem sqTotal_eq (t : List ℚ) (m : ℚ) :
    sqTotal t m = (t.map (fun v => (v - m) ^ 2)).sum := by
  unfold sqTotal
  rw [foldl_add_sq]
  ring

theorem foldl_min_le_init (r : List ℚ) :
    ∀ a : ℚ, r.foldl min a ≤ a := by
  induction r with
  | nil => intro a; simp
  | cons h t ih =>
    intro a
    simp only [List.foldl_cons]
    exact le_trans (ih (min a h)) (min_le_left a h)

theorem foldl_min_le_mem (r : List ℚ) :
    ∀ (a : ℚ) (x : ℚ), x ∈ r → r.foldl min a ≤ x := by
  induction r with
  | nil => intro a x hx; simp at hx
  | cons h t ih =>
    intro a x hx
    rcases List.mem_cons.mp hx with rfl | hx
    · exact le_trans (foldl_min_le_init t (min a x)) (min_le_right a x)
    · exact ih (min a h) x hx

theorem foldl_min_mem (r : List ℚ) :
    ∀ a : ℚ, r.foldl min a = a ∨ r.foldl min a ∈ r := by
  induction r with
  | nil => intro a; simp
  | cons h t ih =>
    intro a
    simp only [List.foldl_cons]
    rcases ih (min a h) with heq | hmem
    · rcases min_cases a h with ⟨hm, -⟩ | ⟨hm, -⟩
      · exact Or.inl (heq.trans hm)
      · exact Or.inr (List.mem_cons.mpr (Or.inl (heq.trans hm)))
    · exact Or.inr (List.mem_cons.mpr (Or.inr hmem))

theorem listMin_mem (t : List ℚ) (h : t ≠ []) : listMin t ∈ t := by
  match t with
  | [] => exact absurd rfl h
  | a :: r =>
    show r.foldl min a ∈ a :: r
    rcases foldl_min_mem r a with heq | hmem
    · rw [heq]; exact List.mem_cons_self a r
    · exact List.mem_cons.mpr (Or.inr hmem)

theorem listMin_le (t : List ℚ) : ∀ x ∈ t, listMin t ≤ x := by
  match t with
  | [] => intro x hx; simp at hx
  | a :: r =>
    intro x hx
    show r.foldl min a ≤ x
    rcases List.mem_cons.mp hx with rfl | hx
    · exact foldl_min_le_init r x
    · exact foldl_min_le_mem r a x hx

theorem foldl_max_init_le (r : List ℚ) :
    ∀ a : ℚ, a ≤ r.foldl max a := by
  induction r with
  | nil => intro a; simp
  | cons h t ih =>
    intro a
    simp only [List.foldl_cons]
    exact le_trans (le_max_left a h) (ih (max a h))

theorem foldl_max_mem_le (r : List ℚ) :
    ∀ (a : ℚ) (x : ℚ), x ∈ r → x ≤ r.foldl max a := by
  induction r with
  | nil => intro a x hx; simp at hx
  | cons h t ih =>
    intro a x hx
    rcases List.mem_cons.mp hx with rfl | hx
    · exact le_trans (le_max_right a x) (foldl_max_init_le t (max a x))
    · exact ih (max a h) x hx

theorem foldl_max_mem (r : List ℚ) :
    ∀ a : ℚ, r.foldl max a = a ∨ r.foldl max a ∈ r := by
  induction r with
  | nil => intro a; simp
  | cons h t ih =>
    intro a
    simp only [List.foldl_cons]
    rcases ih (max a h) with heq | hmem
    · rcases max_cases a h with ⟨hm, -⟩ | ⟨hm, -⟩
      · exact Or.inl (heq.trans hm)
      · exact Or.inr (List.mem_cons.mpr (Or.inl (heq.trans hm)))
    · exact Or.inr (List.mem_cons.mpr (Or.inr hmem))

theorem listMax_mem (t : List ℚ) (h : t ≠ []) : listMax t ∈ t := by
  match t with
  | [] => exact absurd rfl h
  | a :: r =>
    show r.foldl max a ∈ a :: r
    rcases foldl_max_mem r a with heq | hmem
    · rw [heq]; exact List.mem_cons_self a r
    · exact List.mem_cons.mpr (Or.inr hmem)

theorem le_listMax (t : List ℚ) : ∀ x ∈ t, x ≤ listMax t := by
  match t with
  | [] => intro x hx; simp at hx
  | a :: r =>
    intro x hx
    show x ≤ r.foldl max a
    rcases List.mem_cons.mp hx with rfl | hx
    · exact foldl_max_init_le r x
    · exact foldl_max_mem_le r a x hx

/-- The row `calculate_timing_analysis` produces for a non-empty delta
list. -/
noncomputable def rowOf (t : List ℚ) : TRow :=
  ⟨pySum t / t.length, listMin t, listMax t,
   Real.sqrt ((sqTotal t (pySum t / t.length) / (t.length : ℚ) : ℚ) : ℝ)⟩

theorem mean_ok (t : List ℚ) (h : t ≠ []) :
    mean t = .ok (pySum t / t.length) := by
  unfold mean
  rw [if_neg (by simpa using h)]

theorem mean_nil : mean ([] : List ℚ) = .error "ZeroDivisionError" := rfl

theorem std_ok (t : List ℚ) (h : t ≠ []) :
    std t = .ok (Real.sqrt
      ((sqTotal t (pySum t / t.length) / (t.length : ℚ) : ℚ) : ℝ)) := by
  unfold std
  rw [mean_ok t h]

theorem std_nil : std ([] : List ℚ) = .error "ZeroDivisionError" := rfl

theorem calcRow_ok (t : List ℚ) (h : t ≠ []) :
    calcRow t = .ok (rowOf t) := by
  unfold calcRow
  rw [mean_ok t h, std_ok t h]
  rfl

theorem calculate_eq (timing : List (List ℚ))
    (h : ∀ t ∈ timing, t ≠ []) :
    calculate_timing_analysis timing = .ok (timing.map rowOf) := by
  induction timing with
  | nil => rfl
  | cons t rest ih =>
    unfold calculate_timing_analysis
    rw [calcRow_ok t (h t (List.mem_cons_self _ _)),
      ih (fun x hx => h x (List.mem_cons_of_mem _ hx))]
    rfl

/-! ### Spec-side statistics (refinement targets)

The following definitions transcribe the specification's wording, to
be compared with the code-derived functions above: arithmetic mean
`sum/count`, population standard deviation
`sqrt(sum((x-mean)^2)/count)`, and the rolling-window convergence
condition over the last `window` history entries. -/

def specMean (t : List ℚ) : ℚ := t.sum / t.length

noncomputable def specStd (t : List ℚ) : ℝ :=
  Real.sqrt (((t.map (fun x => (x - specMean t) ^ 2)).sum /
    (t.length : ℚ) : ℚ) : ℝ)

/-- The last `n` entries of a list. -/
def lastN (n : ℕ) (l : List α) : List α := l.drop (l.length - n)

/-- The specification's convergence condition: at least `window`
history entries, and the averages over the last `window` entries of
the per-entry standard deviations and means lie strictly below the
respective limits. -/
noncomputable def convergedSpec (history : List (List ℚ))
    (mean_limit : ℚ) (std_limit : ℝ) (window : ℕ) : Prop :=
  window ≤ history.length ∧
  ((lastN window history).map specStd).sum / (window : ℝ) < std_limit ∧
  ((lastN window history).map specMean).sum / (window : ℚ) < mean_limit

/-- Per-position aggregation as the specification's words describe it:
for each keystroke-position index present anywhere in the history,
gather that position's deltas across all attempts in which the index
exists, and take mean, min, max and population standard deviation of
the gathered column. -/
noncomputable def aggregateSpec (history : List (List ℚ)) : List TRow :=
  (List.range ((history.map List.length).foldr max 0)).map
    (fun i =>
      let col := history.filterMap (fun t => t[i]?)
      ⟨specMean col, listMin col, listMax col, specStd col⟩)

theorem rowOf_meanv (t : List ℚ) : (rowOf t).meanv = specMean t := by
  unfold rowOf specMean
  rw [pySum_eq_sum]

theorem rowOf_stdv (t : List ℚ) : (rowOf t).stdv = specStd t := by
  unfold rowOf specStd specMean
  rw [pySum_eq_sum, sqTotal_eq]

theorem meanv_comp_rowOf : TRow.meanv ∘ rowOf = specMean :=
  funext rowOf_meanv

theorem stdv_comp_rowOf : TRow.stdv ∘ rowOf = specStd :=
  funext rowOf_stdv

/-- Code/spec agreement for the convergence predicate, on well-formed
inputs (a positive window and no empty history entry). -/
theorem is_good_spec (timing : List (List ℚ)) (mean_lim : ℚ)
    (std_lim : ℝ) (w : ℕ) (hw : w ≠ 0)
    (hne : ∀ t ∈ timing, t ≠ []) :
    is_good_enough_timing timing mean_lim std_lim w =
      .ok (convergedSpec timing mean_lim std_lim w) := by
  unfold is_good_enough_timing
  split
  · rename_i hlt
    refine congrArg Except.ok (propext ⟨False.elim, fun hconv => ?_⟩)
    exact absurd hconv.1 (by omega)
  · rename_i hge
    obtain ⟨w', rfl⟩ : ∃ w', w = w' + 1 := ⟨w - 1, by omega⟩
    rw [calculate_eq timing hne]
    refine congrArg Except.ok (propext ?_)
    have hdrop : (timing.map rowOf).drop ((timing.map rowOf).length - (w' + 1)) =
        (lastN (w' + 1) timing).map rowOf := by
      rw [List.length_map, ← List.map_drop]
      rfl
    rw [hdrop]
    constructor
    · rintro ⟨hstd, hmean⟩
      refine ⟨by omega, ?_, ?_⟩
      · simpa [List.map_map, stdv_comp_rowOf] using hstd
      · simpa [List.map_map, meanv_comp_rowOf] using hmean
    · rintro ⟨-, hstd, hmean⟩
      constructor
      · simpa [List.map_map, stdv_comp_rowOf] using hstd
      · simpa [List.map_map, meanv_comp_rowOf] using hmean

/-! ### Session-level lemmas -/

theorem show_ok (timing : List (List ℚ)) (h : ∀ t ∈ timing, t ≠ []) :
    show_timing_analysis timing =
      .ok ((timing.map rowOf).enum.map (fun p => (p.1 + 1, p.2))) := by
  unfold show_timing_analysis
  rw [calculate_eq timing h]

theorem is_good_ok_exists (timing : List (List ℚ)) (ml : ℚ) (sl : ℝ)
    (hne : ∀ t ∈ timing, t ≠ []) :
    ∃ p, is_good_enough_timing timing ml sl 5 = .ok p :=
  ⟨_, is_good_spec timing ml sl 5 (by norm_num) hne⟩

/-- On a well-formed history the post-loop code never raises: the
summary is printed and the process ends with status 0. -/
theorem finish_eq (e : Ending) (ml : ℚ) (sl : ℝ) (c i : ℕ)
    (ct : List (List ℚ)) (hne : ∀ t ∈ ct, t ≠ []) :
    finish e ml sl c i ct = ⟨e, 0, false, true, c, i, ct⟩ := by
  unfold finish
  obtain ⟨p, hp⟩ := is_good_ok_exists ct ml sl hne
  rw [hp, show_ok ct hne]

/-- Whatever the history, the post-loop code either prints the summary
and exits 0 with the loop's exit reason, or dies on an uncaught
arithmetic error. -/
theorem finish_cases (e : Ending) (ml : ℚ) (sl : ℝ) (c i : ℕ)
    (ct : List (List ℚ)) :
    finish e ml sl c i ct = ⟨e, 0, false, true, c, i, ct⟩ ∨
    finish e ml sl c i ct = ⟨.crashed, 1, false, false, c, i, ct⟩ := by
  unfold finish
  rcases h1 : is_good_enough_timing ct ml sl 5 with e1 | p1
  · exact Or.inr rfl
  · rcases h2 : show_timing_analysis ct with e2 | l2
    · exact Or.inr rfl
    · exact Or.inl rfl

/-- The exit discipline the session observes: an end-of-input abort
prints the notice, prints no summary and exits with status 0; the
ordinary session endings also exit with status 0. -/
def SafeExit (r : MainResult) : Prop :=
  (r.ending = .eof →
    r.exitCode = 0 ∧ r.eofNotice = true ∧ r.summaryShown = false) ∧
  (r.ending = .completed ∨ r.ending = .cancelled ∨
   r.ending = .tooShort ∨ r.ending = .exitRequested → r.exitCode = 0)

theorem safeExit_finish (e : Ending) (ml : ℚ) (sl : ℝ) (c i : ℕ)
    (ct : List (List ℚ)) (he : e ≠ .eof) :
    SafeExit (finish e ml sl c i ct) := by
  rcases finish_cases e ml sl c i ct with h | h <;> rw [h]
  · exact ⟨fun hh => absurd hh he, fun _ => rfl⟩
  · exact ⟨fun hh => by simp at hh, fun hh => by simp at hh⟩

theorem loopStep_done_inv (rc : ℕ) (ml : ℚ) (sl : ℝ) (pwh : List Char)
    (c i : ℕ) (ct : List (List ℚ)) (input : List (Char × ℚ))
    (r : MainResult)
    (h : loopStep rc ml sl pwh c i ct input = .done r) :
    r = ⟨.crashed, 1, false, false, c, i, ct⟩ ∨
    r = ⟨.eof, 0, true, false, c, i, ct⟩ ∨
    r = finish .completed ml sl c i ct ∨
    r = finish .cancelled ml sl c i ct := by
  unfold loopStep at h
  split at h
  · split at h
    · cases h; exact Or.inl rfl
    · split at h
      · cases h; exact Or.inr (Or.inr (Or.inl rfl))
      · split at h
        · cases h; exact Or.inr (Or.inl rfl)
        · split at h
          · exact absurd h (by simp)
          · split at h
            · cases h; exact Or.inr (Or.inr (Or.inr rfl))
            · exact absurd h (by simp)
  · cases h; exact Or.inr (Or.inr (Or.inl rfl))

theorem loopStep_done_safe (rc : ℕ) (ml : ℚ) (sl : ℝ) (pwh : List Char)
    (c i : ℕ) (ct : List (List ℚ)) (input : List (Char × ℚ))
    (r : MainResult)
    (h : loopStep rc ml sl pwh c i ct input = .done r) :
    SafeExit r := by
  rcases loopStep_done_inv rc ml sl pwh c i ct input r h with
    rfl | rfl | rfl | rfl
  · exact ⟨fun hh => by simp at hh, fun hh => by simp at hh⟩
  · exact ⟨fun _ => ⟨rfl, rfl, rfl⟩, fun hh => by simp at hh⟩
  · exact safeExit_finish _ ml sl c i ct (by simp)
  · exact safeExit_finish _ ml sl c i ct (by simp)

theorem trainLoop_safe :
    ∀ (n : ℕ) (input : List (Char × ℚ)), input.length ≤ n →
    ∀ (rc : ℕ) (ml : ℚ) (sl : ℝ) (pwh : List Char) (c i : ℕ)
      (ct : List (List ℚ)),
    SafeExit (trainLoop rc ml sl pwh c i ct input) := by
  intro n
  induction n with
  | zero =>
    intro input hlen rc ml sl pwh c i ct
    rw [trainLoop]
    split
    · rename_i r heq
      exact loopStep_done_safe rc ml sl pwh c i ct input r heq
    · rename_i c' i' ct' rest heq
      have := loopStep_cont_length rc ml sl pwh c i ct input c' i' ct' rest heq
      omega
  | succ n ih =>
    intro input hlen rc ml sl pwh c i ct
    rw [trainLoop]
    split
    · rename_i r heq
      exact loopStep_done_safe rc ml sl pwh c i ct input r heq
    · rename_i c' i' ct' rest heq
      have hlt := loopStep_cont_length rc ml sl pwh c i ct input c' i' ct' rest heq
      exact ih rest (by omega) rc ml sl pwh c' i' ct'

theorem pwmain_safe (rc : ℕ) (ml : ℚ) (sl : ℝ)
    (input : List (Char × ℚ)) : SafeExit (pwmain rc ml sl input) := by
  unfold pwmain
  split
  · exact ⟨fun _ => ⟨rfl, rfl, rfl⟩, fun hh => by simp at hh⟩
  · split
    · exact ⟨fun hh => by simp at hh, fun _ => rfl⟩
    · split
      · exact ⟨fun hh => by simp at hh, fun _ => rfl⟩
      · exact trainLoop_safe _ _ le_rfl rc ml sl _ 0 0 []

/-- `read_password` on a stream whose first terminator comes after a
clean prefix. -/
theorem read_password_eq (pre : List (Char × ℚ)) (c : Char) (t : ℚ)
    (rest : List (Char × ℚ))
    (hclean : ∀ x ∈ pre, x.1.toNat ≠ 13 ∧ x.1.toNat ≠ 3)
    (hterm : c.toNat = 13 ∨ c.toNat = 3) :
    read_password (pre ++ (c, t) :: rest) =
      some (pre.map Prod.fst ++ (if c.toNat = 13 then [] else [c]),
            mkDeltas (pre.map Prod.snd ++ [t])) := by
  unfold read_password readPasswordRest
  rw [readPasswordAux_append pre c t rest [] [] hclean hterm]
  simp

/-- A successfully read attempt that matches a reference not ending in
the cancel character was Enter-terminated, and its delta list is as
long as the reference. -/
theorem readPasswordRest_correct_length (input : List (Char × ℚ))
    (pwh pw : List Char) (timing : List ℚ) (rest : List (Char × ℚ))
    (hread : readPasswordRest input = some ((pw, timing), rest))
    (hpw : pw = pwh)
    (hlast : (pwh.getLastD 'A').toNat ≠ 3) :
    timing.length = pwh.length := by
  obtain ⟨pre, cterm, t, happ, hclean, hterm, hpw', htiming⟩ :=
    readPasswordAux_some_inv input [] [] pw timing rest hread
  subst hpw
  rcases hterm with h13 | h3
  · rw [if_pos h13] at hpw'
    simp only [List.nil_append, List.append_nil] at hpw' htiming
    rw [htiming, mkDeltas_length, hpw']
    simp
  · exfalso
    rw [if_neg (by omega)] at hpw'
    simp only [List.nil_append] at hpw'
    apply hlast
    rw [hpw', List.getLastD_concat, h3]

/-- The training loop keeps the invariant that every stored delta list
is as long as the reference password. -/
theorem loopStep_cont_inv (rc : ℕ) (ml : ℚ) (sl : ℝ) (pwh : List Char)
    (c i : ℕ) (ct : List (List ℚ)) (input : List (Char × ℚ))
    (c' i' : ℕ) (ct' : List (List ℚ)) (rest : List (Char × ℚ))
    (hlast : (pwh.getLastD 'A').toNat ≠ 3)
    (hinv : ∀ l ∈ ct, l.length = pwh.length)
    (h : loopStep rc ml sl pwh c i ct input = .cont c' i' ct' rest) :
    ∀ l ∈ ct', l.length = pwh.length := by
  unfold loopStep at h
  split at h
  · split at h
    · exact absurd h (by simp)
    · split at h
      · exact absurd h (by simp)
      · split at h
        · exact absurd h (by simp)
        · rename_i heq
          split at h
          · rename_i hpweq
            cases h
            intro l hl
            rcases List.mem_append.mp hl with hl | hl
            · exact hinv l hl
            · rw [List.mem_singleton.mp hl]
              exact readPasswordRest_correct_length _ pwh _ _ _ heq hpweq hlast
          · split at h
            · exact absurd h (by simp)
            · cases h
              exact hinv
  · exact absurd h (by simp)

/-! ### Characterization of the class profile -/

theorem classCounts_aux (s : List Char) :
    ∀ a : ClassCounts,
    s.foldl (fun a c =>
      if c ∈ c_normal then { a with normal := a.normal + 1 }
      else if c ∈ c_capital then { a with capital := a.capital + 1 }
      else if c ∈ c_number then { a with number := a.number + 1 }
      else { a with special := a.special + 1 }) a =
    ⟨a.normal + s.countP (fun c => c ∈ c_normal),
     a.capital + s.countP (fun c => c ∉ c_normal ∧ c ∈ c_capital),
     a.number + s.countP (fun c => c ∉ c_normal ∧ c ∉ c_capital ∧ c ∈ c_number),
     a.special + s.countP (fun c => c ∉ c_normal ∧ c ∉ c_capital ∧ c ∉ c_number)⟩ := by
  induction s with
  | nil => intro a; simp
  | cons c r ih =>
    intro a
    simp only [List.foldl_cons, List.countP_cons, ih]
    by_cases h1 : c ∈ c_normal
    · simp [h1, ClassCounts.mk.injEq]
      omega
    · by_cases h2 : c ∈ c_capital
      · simp [h1, h2, ClassCounts.mk.injEq]
        omega
      · by_cases h3 : c ∈ c_number
        · simp [h1, h2, h3, ClassCounts.mk.injEq]
          omega
        · simp [h1, h2, h3, ClassCounts.mk.injEq]
          omega

theorem classCounts_spec (s : List Char) :
    classCounts s =
      ⟨s.countP (fun c => c ∈ c_normal),
       s.countP (fun c => c ∉ c_normal ∧ c ∈ c_capital),
       s.countP (fun c => c ∉ c_normal ∧ c ∉ c_capital ∧ c ∈ c_number),
       s.countP (fun c => c ∉ c_normal ∧ c ∉ c_capital ∧ c ∉ c_number)⟩ := by
  unfold classCounts
  rw [classCounts_aux]
  simp

theorem countP_capital_simp (s : List Char) :
    s.countP (fun c => c ∉ c_normal ∧ c ∈ c_capital) =
      s.countP (fun c => c ∈ c_capital) := by
  apply List.countP_congr
  intro a _
  simp only [decide_eq_true_eq]
  have hd : ∀ c ∈ c_capital, c ∉ c_normal := by decide
  exact ⟨fun hh => hh.2, fun hh => ⟨hd a hh, hh⟩⟩

theorem countP_number_simp (s : List Char) :
    s.countP (fun c => c ∉ c_normal ∧ c ∉ c_capital ∧ c ∈ c_number) =
      s.countP (fun c => c ∈ c_number) := by
  apply List.countP_congr
  intro a _
  simp only [decide_eq_true_eq]
  have hd1 : ∀ c ∈ c_number, c ∉ c_normal := by decide
  have hd2 : ∀ c ∈ c_number, c ∉ c_capital := by decide
  exact ⟨fun hh => hh.2.2, fun hh => ⟨hd1 a hh, hd2 a hh, hh⟩⟩

/-! ### Branch lemmas for `is_good_enough_timing` -/

theorem is_good_lt (timing : List (List ℚ)) (ml : ℚ) (sl : ℝ) (w : ℕ)
    (hlt : timing.length < w) :
    is_good_enough_timing timing ml sl w = .ok False := by
  unfold is_good_enough_timing
  rw [if_pos hlt]

theorem is_good_calc_err (timing : List (List ℚ)) (ml : ℚ) (sl : ℝ)
    (w : ℕ) (e : String) (hge : ¬timing.length < w)
    (hc : calculate_timing_analysis timing = .error e) :
    is_good_enough_timing timing ml sl w = .error e := by
  unfold is_good_enough_timing
  rw [if_neg hge, hc]

theorem is_good_zero (timing : List (List ℚ)) (ml : ℚ) (sl : ℝ)
    (rows : List TRow) (hge : ¬timing.length < 0)
    (hc : calculate_timing_analysis timing = .ok rows) :
    is_good_enough_timing timing ml sl 0 = .error "ZeroDivisionError" := by
  unfold is_good_enough_timing
  rw [if_neg hge, hc]
  rfl

theorem is_good_ge (timing : List (List ℚ)) (ml : ℚ) (sl : ℝ) (w' : ℕ)
    (rows : List TRow) (hge : ¬timing.length < w' + 1)
    (hc : calculate_timing_analysis timing = .ok rows) :
    is_good_enough_timing timing ml sl (w' + 1) =
      .ok (((rows.drop (rows.length - (w' + 1))).map TRow.stdv).sum /
             ((w' + 1 : ℕ) : ℝ) < sl ∧
           ((rows.drop (rows.length - (w' + 1))).map TRow.meanv).sum /
             ((w' + 1 : ℕ) : ℚ) < ml) := by
  unfold is_good_enough_timing
  rw [if_neg hge, hc]
  rfl

/-! ### Claims -/

/-- C1 (amended): when the input stream is exhausted the session aborts
at the outermost scope, prints the termination notice, prints no
partial summary, and exits with status 0 (the `except EOFError` handler
calls `exit(0)`, not a non-zero exit); normal completion, cancellation
and a too-short reference also exit with status 0. -/
theorem C1_exit_codes (rc : ℕ) (ml : ℚ) (sl : ℝ)
    (input : List (Char × ℚ)) :
    ((pwmain rc ml sl input).ending = .eof →
      (pwmain rc ml sl input).exitCode = 0 ∧
      (pwmain rc ml sl input).eofNotice = true ∧
      (pwmain rc ml sl input).summaryShown = false) ∧
    ((pwmain rc ml sl input).ending = .completed ∨
     (pwmain rc ml sl input).ending = .cancelled ∨
     (pwmain rc ml sl input).ending = .tooShort ∨
     (pwmain rc ml sl input).ending = .exitRequested →
      (pwmain rc ml sl input).exitCode = 0) :=
  pwmain_safe rc ml sl input

/-- C1, counterexample to the claim as stated: on an immediately
exhausted stream the session does end in the EOF abort with the notice
printed, but the exit status is 0, not non-zero. -/
theorem C1_counterexample :
    (pwmain 20 1 1 []).ending = .eof ∧
    (pwmain 20 1 1 []).eofNotice = true ∧
    (pwmain 20 1 1 []).summaryShown = false ∧
    (pwmain 20 1 1 []).exitCode = 0 :=
  ⟨rfl, rfl, rfl, rfl⟩

theorem C1_witness :
    (pwmain 20 1 1 []).exitCode = 0 ∧
    (pwmain 20 1 1 []).eofNotice = true ∧
    (pwmain 20 1 1 []).summaryShown = false :=
  (C1_exit_codes 20 1 1 []).1 rfl

/-- C3 (amended): when the cancel character (code 3) is read the
collector returns immediately, but with everything captured so far and
the cancel character appended — a single-character result only when
the cancel was the first character; during training the session
transitions to `Cancelled` (stopping the loop, leaving both counters
and the history untouched) exactly when the returned entry is the
single cancel character: any other returned entry never cancels — it
is handled like an ordinary attempt, counted correct when it equals
the reference and incorrect otherwise, and the loop continues. -/
theorem C3_cancel_behavior :
    (∀ (pre : List (Char × ℚ)) (t : ℚ) (rest : List (Char × ℚ))
       (times : List ℚ) (pw : List Char),
      (∀ x ∈ pre, x.1.toNat ≠ 13 ∧ x.1.toNat ≠ 3) →
      readPasswordAux (pre ++ (Char.ofNat 3, t) :: rest) times pw =
        some ((pw ++ pre.map Prod.fst ++ [Char.ofNat 3],
               mkDeltas (times ++ pre.map Prod.snd ++ [t])), rest)) ∧
    (∀ (rc : ℕ) (ml : ℚ) (sl : ℝ) (pwh : List Char) (c i : ℕ)
       (ct : List (List ℚ)) (input : List (Char × ℚ)) (timing : List ℚ)
       (rest : List (Char × ℚ)) (p : Prop),
      c < rc → c + i < 100 →
      is_good_enough_timing ct ml sl 5 = .ok p → ¬p →
      readPasswordRest input = some (([Char.ofNat 3], timing), rest) →
      2 ≤ pwh.length →
      (∀ l ∈ ct, l ≠ []) →
      loopStep rc ml sl pwh c i ct input =
        .done ⟨.cancelled, 0, false, true, c, i, ct⟩) ∧
    (∀ (rc : ℕ) (ml : ℚ) (sl : ℝ) (pwh : List Char) (c i : ℕ)
       (ct : List (List ℚ)) (input : List (Char × ℚ)) (pw : List Char)
       (timing : List ℚ) (rest : List (Char × ℚ)) (p : Prop),
      c < rc → c + i < 100 →
      is_good_enough_timing ct ml sl 5 = .ok p → ¬p →
      readPasswordRest input = some ((pw, timing), rest) →
      pw ≠ [Char.ofNat 3] →
      loopStep rc ml sl pwh c i ct input =
        (if pw = pwh then StepRes.cont (c + 1) i (ct ++ [timing]) rest
         else StepRes.cont c (i + 1) ct rest)) := by
  refine ⟨?_, ?_, ?_⟩
  · intro pre t rest times pw hclean
    rw [readPasswordAux_append pre (Char.ofNat 3) t rest times pw hclean
      (Or.inr (by decide)), if_neg (by decide)]
  · intro rc ml sl pwh c i ct input timing rest p hc hlim hg hp hread
      hlen hne
    unfold loopStep
    rw [if_pos ⟨hc, hlim⟩]
    simp only [hg, hread]
    rw [if_neg hp,
      if_neg (show ¬([Char.ofNat 3] = pwh) from fun hh => by
        rw [← hh] at hlen; simp at hlen),
      if_pos ⟨rfl, by decide⟩,
      finish_eq .cancelled ml sl c i ct hne]
  · intro rc ml sl pwh c i ct input pw timing rest p hc hlim hg hp hread
      hsingle
    have hnc : ¬(pw.length = 1 ∧ (pw.headD 'A').toNat = 3) := by
      rintro ⟨hl, hh⟩
      apply hsingle
      obtain ⟨a, rfl⟩ : ∃ a, pw = [a] := by
        match pw, hl with
        | [a], _ => exact ⟨a, rfl⟩
      have ha : a = Char.ofNat 3 := by
        simp only [List.headD_cons] at hh
        rw [← Char.ofNat_toNat a, hh]
      rw [ha]
    unfold loopStep
    rw [if_pos ⟨hc, hlim⟩]
    simp only [hg, hread]
    rw [if_neg hp]
    by_cases hpe : pw = pwh
    · rw [if_pos hpe, if_pos hpe]
    · rw [if_neg hpe, if_neg hnc, if_neg hpe]

/-- C3, counterexample to the claim as stated: with characters typed
before the cancel keystroke, the collector's result is not a
single-character result — it is all captured characters with the
cancel character appended. -/
theorem C3_counterexample :
    read_password [('a', 0), ('b', 1), (Char.ofNat 3, 2)] =
      some (['a', 'b', Char.ofNat 3], [1, 1]) ∧
    (['a', 'b', Char.ofNat 3] : List Char).length ≠ 1 := by
  constructor
  · have h := read_password_eq [('a', 0), ('b', 1)] (Char.ofNat 3) 2 []
      (by decide) (Or.inr (by decide))
    rw [if_neg (by decide)] at h
    simp only [List.cons_append, List.nil_append, List.map_cons,
      List.map_nil] at h
    rw [h]
    norm_num [mkDeltas]
  · decide

theorem C3_witness :
    readPasswordAux [('a', 0), (Char.ofNat 3, 1)] [] [] =
      some (((['a', Char.ofNat 3] : List Char), ([1] : List ℚ)),
            ([] : List (Char × ℚ))) ∧
    loopStep 20 1 1 ['a', 'b'] 0 0 [] [(Char.ofNat 3, 0)] =
      .done ⟨.cancelled, 0, false, true, 0, 0, []⟩ ∧
    loopStep 20 1 1 ['x', 'y'] 0 0 [] [('z', 0), (Char.ofNat 13, 1)] =
      .cont 0 1 [] [] := by
  refine ⟨?_, ?_, ?_⟩
  · have h := C3_cancel_behavior.1 [('a', 0)] 1 [] [] [] (by decide)
    simp only [List.cons_append, List.nil_append, List.map_cons,
      List.map_nil] at h
    rw [h]
    norm_num [mkDeltas]
  · exact C3_cancel_behavior.2.1 20 1 1 ['a', 'b'] 0 0 []
      [(Char.ofNat 3, 0)] [] [] False (by decide) (by decide) rfl
      (by decide) (by decide) (by decide) (by simp)
  · have hread : readPasswordRest [('z', 0), (Char.ofNat 13, 1)] =
        some (((['z'] : List Char), mkDeltas [0, 1]),
              ([] : List (Char × ℚ))) := by
      have h := readPasswordAux_append [('z', 0)] (Char.ofNat 13) 1 []
        [] [] (by decide) (Or.inl (by decide))
      rw [if_pos (by decide)] at h
      simpa using h
    have h3 := C3_cancel_behavior.2.2 20 1 1 ['x', 'y'] 0 0 []
      [('z', 0), (Char.ofNat 13, 1)] ['z'] (mkDeltas [0, 1]) [] False
      (by decide) (by decide) rfl (by decide) hread (by decide)
    rw [h3, if_neg (by decide)]

/-- C4 (amended): for every completed attempt the delta list has one
entry per read keystroke except the first (the interval ending at the
terminator included).  Hence an Enter-terminated attempt's entered
string (which excludes the terminator) has exactly as many characters
as there are deltas, while a cancel-terminated attempt's result (which
includes the cancel character) has one character more than deltas;
the delta list is empty exactly when a single character was typed. -/
theorem C4_roundtrip (pre : List (Char × ℚ)) (c : Char) (t : ℚ)
    (rest : List (Char × ℚ))
    (hclean : ∀ x ∈ pre, x.1.toNat ≠ 13 ∧ x.1.toNat ≠ 3)
    (hterm : c.toNat = 13 ∨ c.toNat = 3) :
    ∃ pw d, read_password (pre ++ (c, t) :: rest) = some (pw, d) ∧
      d.length = pre.length ∧
      (c.toNat = 13 → pw.length = d.length) ∧
      (c.toNat = 3 → pw.length = d.length + 1) ∧
      (pre = [] → d = []) := by
  refine ⟨_, _, read_password_eq pre c t rest hclean hterm,
    ?_, ?_, ?_, ?_⟩
  · rw [mkDeltas_length]
    simp
  · intro h13
    rw [if_pos h13, mkDeltas_length]
    simp
  · intro h3
    rw [if_neg (by omega), mkDeltas_length]
    simp
  · rintro rfl
    rfl

/-- C4, counterexample to the claim as stated: an Enter-terminated
attempt with two characters typed has two deltas, not one — the
entered string's length equals the delta count, not delta count + 1. -/
theorem C4_counterexample :
    read_password [('a', 0), ('b', 1), (Char.ofNat 13, 2)] =
      some (['a', 'b'], [1, 1]) ∧
    ¬((['a', 'b'] : List Char).length = ([1, 1] : List ℚ).length + 1) := by
  constructor
  · have h := read_password_eq [('a', 0), ('b', 1)] (Char.ofNat 13) 2 []
      (by decide) (Or.inl (by decide))
    rw [if_pos (by decide)] at h
    simp only [List.cons_append, List.nil_append, List.map_cons,
      List.map_nil, List.append_nil] at h
    rw [h]
    norm_num [mkDeltas]
  · decide

theorem C4_witness :
    ∃ pw d,
      read_password ([(('a' : Char), (0 : ℚ)), ('b', 1)] ++
        (Char.ofNat 13, 2) :: []) = some (pw, d) ∧
      d.length = ([(('a' : Char), (0 : ℚ)), ('b', 1)] : List (Char × ℚ)).length ∧
      ((Char.ofNat 13).toNat = 13 → pw.length = d.length) ∧
      ((Char.ofNat 13).toNat = 3 → pw.length = d.length + 1) ∧
      (([(('a' : Char), (0 : ℚ)), ('b', 1)] : List (Char × ℚ)) = [] → d = []) :=
  C4_roundtrip [('a', 0), ('b', 1)] (Char.ofNat 13) 2 []
    (by decide) (Or.inl (by decide))

/-- C5: the convergence predicate returns `False` whenever fewer than
`window` history entries exist, and otherwise holds exactly when the
averages, over the last `window` history entries, of the per-entry
means and of the per-entry standard deviations are both strictly below
their limits (for a positive window and a history without empty
entries). -/
theorem C5_convergence (timing : List (List ℚ)) (mean_lim : ℚ)
    (std_lim : ℝ) (window : ℕ) (hw : 0 < window)
    (hne : ∀ t ∈ timing, t ≠ []) :
    is_good_enough_timing timing mean_lim std_lim window =
      .ok (convergedSpec timing mean_lim std_lim window) :=
  is_good_spec timing mean_lim std_lim window (by omega) hne

theorem C5_witness :
    is_good_enough_timing [[(1 : ℚ), 1], [1, 1]] 2 1 2 =
      .ok (convergedSpec [[(1 : ℚ), 1], [1, 1]] 2 1 2) :=
  C5_convergence [[1, 1], [1, 1]] 2 1 2 (by norm_num) (by decide)

/-- C6: the convergence predicate is monotone in its thresholds: for a
fixed history and window, raising the mean limit and/or the std limit
can only turn a `False` verdict into a `True` one, never conversely. -/
theorem C6_threshold_monotone (timing : List (List ℚ)) (window : ℕ)
    (ml ml' : ℚ) (sl sl' : ℝ) (p p' : Prop)
    (hml : ml ≤ ml') (hsl : sl ≤ sl')
    (h : is_good_enough_timing timing ml sl window = .ok p)
    (h' : is_good_enough_timing timing ml' sl' window = .ok p')
    (hp : p) : p' := by
  by_cases hlt : timing.length < window
  · rw [is_good_lt timing ml sl window hlt] at h
    cases h
    exact hp.elim
  · rcases hc : calculate_timing_analysis timing with e | rows
    · rw [is_good_calc_err timing ml sl window e hlt hc] at h
      cases h
    · rcases Nat.eq_zero_or_pos window with rfl | hwpos
      · rw [is_good_zero timing ml sl rows hlt hc] at h
        cases h
      · obtain ⟨w', rfl⟩ : ∃ w', window = w' + 1 := ⟨window - 1, by omega⟩
        rw [is_good_ge timing ml sl w' rows hlt hc] at h
        rw [is_good_ge timing ml' sl' w' rows hlt hc] at h'
        cases h
        cases h'
        exact ⟨lt_of_lt_of_le hp.1 hsl, lt_of_lt_of_le hp.2 hml⟩

theorem C6_witness : convergedSpec [[(1 : ℚ), 1]] 3 2 1 := by
  have h1 := is_good_spec [[(1 : ℚ), 1]] 2 1 1 (by norm_num) (by decide)
  have h2 := is_good_spec [[(1 : ℚ), 1]] 3 2 1 (by norm_num) (by decide)
  have hp : convergedSpec [[(1 : ℚ), 1]] 2 1 1 := by
    refine ⟨by simp, ?_, ?_⟩
    · show ((lastN 1 [[(1 : ℚ), 1]]).map specStd).sum / ((1 : ℕ) : ℝ) < 1
      have hs : specStd [(1 : ℚ), 1] = 0 := by
        unfold specStd specMean
        norm_num
      simp [lastN, hs]
    · show ((lastN 1 [[(1 : ℚ), 1]]).map specMean).sum / ((1 : ℕ) : ℚ) < 2
      unfold specMean
      simp [lastN]
  exact C6_threshold_monotone [[(1 : ℚ), 1]] 1 2 3 1 2 _ _
    (by norm_num) (by norm_num) h1 h2 hp

/-- C7: `mean` of a non-empty list is the arithmetic average, `std` is
the population standard deviation, and on the empty list both raise
`ZeroDivisionError` instead of silently dividing by zero. -/
theorem C7_mean_std :
    (∀ t : List ℚ, t ≠ [] →
      mean t = .ok (t.sum / (t.length : ℚ)) ∧
      std t = .ok (Real.sqrt
        (((t.map (fun x => (x - t.sum / (t.length : ℚ)) ^ 2)).sum /
          (t.length : ℚ) : ℚ) : ℝ))) ∧
    mean ([] : List ℚ) = .error "ZeroDivisionError" ∧
    std ([] : List ℚ) = .error "ZeroDivisionError" := by
  refine ⟨fun t ht => ⟨?_, ?_⟩, mean_nil, std_nil⟩
  · rw [mean_ok t ht, pySum_eq_sum]
  · rw [std_ok t ht, pySum_eq_sum, sqTotal_eq]

theorem C7_witness :
    mean [(1 : ℚ), 3] = .ok 2 ∧ std [(1 : ℚ), 3] = .ok 1 := by
  obtain ⟨h1, h2⟩ := C7_mean_std.1 [(1 : ℚ), 3] (by decide)
  constructor
  · rw [h1]
    norm_num
  · rw [h2]
    have : (((([(1 : ℚ), 3].map
        (fun x => (x - [(1 : ℚ), 3].sum / (([(1 : ℚ), 3].length : ℕ) : ℚ)) ^ 2)).sum /
          (([(1 : ℚ), 3].length : ℕ) : ℚ) : ℚ) : ℝ)) = 1 := by
      norm_num
    rw [this, Real.sqrt_one]

/-- C9: an incorrect, non-cancel attempt leaves the correct counter and
the correct-attempt history untouched, increments the incorrect
counter by exactly one, and lets the loop continue. -/
theorem C9_incorrect_frame (rc : ℕ) (ml : ℚ) (sl : ℝ) (pwh : List Char)
    (c i : ℕ) (ct : List (List ℚ)) (input : List (Char × ℚ))
    (pw : List Char) (timing : List ℚ) (rest : List (Char × ℚ))
    (p : Prop)
    (hc : c < rc) (hlim : c + i < 100)
    (hg : is_good_enough_timing ct ml sl 5 = .ok p) (hp : ¬p)
    (hread : readPasswordRest input = some ((pw, timing), rest))
    (hne : pw ≠ pwh)
    (hnc : ¬(pw.length = 1 ∧ (pw.headD 'A').toNat = 3)) :
    loopStep rc ml sl pwh c i ct input = .cont c (i + 1) ct rest := by
  unfold loopStep
  rw [if_pos ⟨hc, hlim⟩]
  simp only [hg, hread]
  rw [if_neg hp, if_neg hne, if_neg hnc]

theorem C9_witness :
    loopStep 20 1 1 ['b', 'c'] 0 0 [] [('a', 0), (Char.ofNat 13, 1)] =
      .cont 0 1 [] [] := by
  have hread : readPasswordRest [('a', 0), (Char.ofNat 13, 1)] =
      some (((['a'] : List Char), mkDeltas [0, 1]),
            ([] : List (Char × ℚ))) := by
    have h := readPasswordAux_append [('a', 0)] (Char.ofNat 13) 1 [] [] []
      (by decide) (Or.inl (by decide))
    rw [if_pos (by decide)] at h
    simpa using h
  exact C9_incorrect_frame 20 1 1 ['b', 'c'] 0 0 [] _ ['a']
    (mkDeltas [0, 1]) [] False (by decide) (by decide) rfl (by decide)
    hread (by decide) (by decide)

/-- C10: every training-loop iteration keeps the invariant that each
stored delta list has exactly the reference password's length (itself
at least 2), so the history is never ragged and never holds an empty
row, and neither the convergence check nor the final statistics table
can reach the division-by-zero branch of `mean`/`std`. -/
theorem C10_history_invariant (rc : ℕ) (ml : ℚ) (sl : ℝ)
    (pwh : List Char) (c i : ℕ) (ct : List (List ℚ))
    (input : List (Char × ℚ)) (c' i' : ℕ) (ct' : List (List ℚ))
    (rest : List (Char × ℚ))
    (hlen : 2 ≤ pwh.length)
    (hlast : (pwh.getLastD 'A').toNat ≠ 3)
    (hinv : ∀ l ∈ ct, l.length = pwh.length)
    (h : loopStep rc ml sl pwh c i ct input = .cont c' i' ct' rest) :
    (∀ l ∈ ct', l.length = pwh.length) ∧
    (∀ l ∈ ct', l ≠ []) ∧
    (∃ rows, calculate_timing_analysis ct' = .ok rows) ∧
    (∃ p, is_good_enough_timing ct' ml sl 5 = .ok p) := by
  have hinv' := loopStep_cont_inv rc ml sl pwh c i ct input c' i' ct'
    rest hlast hinv h
  have hne : ∀ l ∈ ct', l ≠ [] := by
    intro l hl hnil
    have hll := hinv' l hl
    rw [hnil] at hll
    simp at hll
    omega
  exact ⟨hinv', hne, ⟨_, calculate_eq ct' hne⟩,
    is_good_ok_exists ct' ml sl hne⟩

theorem C10_witness :
    (∀ l ∈ ([[(1 : ℚ), 1]] : List (List ℚ)),
      l.length = (['a', 'b'] : List Char).length) ∧
    (∀ l ∈ ([[(1 : ℚ), 1]] : List (List ℚ)), l ≠ []) ∧
    (∃ rows, calculate_timing_analysis [[(1 : ℚ), 1]] = .ok rows) ∧
    (∃ p, is_good_enough_timing [[(1 : ℚ), 1]] 1 1 5 = .ok p) := by
  have hread : readPasswordRest [('a', 0), ('b', 1), (Char.ofNat 13, 2)] =
      some (((['a', 'b'] : List Char), ([1, 1] : List ℚ)),
            ([] : List (Char × ℚ))) := by
    have h := readPasswordAux_append [('a', 0), ('b', 1)] (Char.ofNat 13)
      2 [] [] [] (by decide) (Or.inl (by decide))
    rw [if_pos (by decide)] at h
    simp only [List.cons_append, List.nil_append, List.map_cons,
      List.map_nil, List.append_nil] at h
    unfold readPasswordRest
    rw [h]
    norm_num [mkDeltas]
  have hstep : loopStep 20 1 1 ['a', 'b'] 0 0 []
      [('a', 0), ('b', 1), (Char.ofNat 13, 2)] =
      .cont 1 0 [[(1 : ℚ), 1]] [] := by
    unfold loopStep
    rw [if_pos ⟨(by decide : (0 : ℕ) < 20), (by decide : 0 + 0 < 100)⟩]
    simp only [show is_good_enough_timing [] 1 1 5 = .ok False from rfl,
      hread]
    simp
  exact C10_history_invariant 20 1 1 ['a', 'b'] 0 0 [] _ 1 0
    [[(1 : ℚ), 1]] [] (by decide) (by decide) (by simp) hstep

/-- C2 (amended): the aggregate operation returns one
(mean, min, max, stddev) statistic per *correct attempt* — each row
computed from that attempt's own delta list, in history order — and
the summary table has one line per correct attempt, not per keystroke
position. -/
theorem C2_per_attempt (timing : List (List ℚ))
    (hne : ∀ t ∈ timing, t ≠ []) :
    ∃ rows lines,
      calculate_timing_analysis timing = .ok rows ∧
      show_timing_analysis timing = .ok lines ∧
      rows.length = timing.length ∧
      lines.length = timing.length ∧
      ∀ (k : ℕ) (hk : k < timing.length) (hk2 : k < rows.length),
        (rows.get ⟨k, hk2⟩).meanv = specMean (timing.get ⟨k, hk⟩) ∧
        (rows.get ⟨k, hk2⟩).minv ∈ timing.get ⟨k, hk⟩ ∧
        (∀ x ∈ timing.get ⟨k, hk⟩, (rows.get ⟨k, hk2⟩).minv ≤ x) ∧
        (rows.get ⟨k, hk2⟩).maxv ∈ timing.get ⟨k, hk⟩ ∧
        (∀ x ∈ timing.get ⟨k, hk⟩, x ≤ (rows.get ⟨k, hk2⟩).maxv) ∧
        (rows.get ⟨k, hk2⟩).stdv = specStd (timing.get ⟨k, hk⟩) := by
  refine ⟨timing.map rowOf, _, calculate_eq timing hne,
    show_ok timing hne, List.length_map _ _, by simp, ?_⟩
  intro k hk hk2
  have hget : (timing.map rowOf).get ⟨k, hk2⟩ =
      rowOf (timing.get ⟨k, hk⟩) := by
    simp
  have hmem : timing.get ⟨k, hk⟩ ∈ timing := List.get_mem timing k hk
  have hnil : timing.get ⟨k, hk⟩ ≠ [] := hne _ hmem
  rw [hget]
  exact ⟨rowOf_meanv _, listMin_mem _ hnil, listMin_le _,
    listMax_mem _ hnil, le_listMax _, rowOf_stdv _⟩

/-- C2, counterexample to the claim as stated: a history of a single
correct attempt with three keystroke positions yields an aggregate of
one row and a summary table of one line, not three — the aggregation
is per attempt, not per position. -/
theorem C2_counterexample :
    calculate_timing_analysis [[(1 : ℚ), 3, 5]] =
      .ok [rowOf [(1 : ℚ), 3, 5]] ∧
    show_timing_analysis [[(1 : ℚ), 3, 5]] =
      .ok [(1, rowOf [(1 : ℚ), 3, 5])] ∧
    ([rowOf [(1 : ℚ), 3, 5]] : List TRow).length = 1 ∧
    (aggregateSpec [[(1 : ℚ), 3, 5]]).length = 3 ∧
    (1 : ℕ) ≠ 3 := by
  refine ⟨by simpa using calculate_eq [[(1 : ℚ), 3, 5]] (by decide),
    ?_, rfl, ?_, by decide⟩
  · have h := show_ok [[(1 : ℚ), 3, 5]] (by decide)
    simpa [List.enum] using h
  · simp [aggregateSpec]

theorem C2_witness :
    ∃ rows lines,
      calculate_timing_analysis [[(1 : ℚ), 3], [5, 7]] = .ok rows ∧
      show_timing_analysis [[(1 : ℚ), 3], [5, 7]] = .ok lines ∧
      rows.length = 2 ∧ lines.length = 2 := by
  obtain ⟨rows, lines, h1, h2, h3, h4, -⟩ :=
    C2_per_attempt [[(1 : ℚ), 3], [5, 7]] (by decide)
  exact ⟨rows, lines, h1, h2, by rw [h3]; rfl, by rw [h4]; rfl⟩

/-- C8: the reference profile counts characters per class, reports the
number of classes present, the summed alphabet sizes of the classes
present (26 lowercase + 26 uppercase + 10 digits + 33 other), and the
exact integer power `class_depth ^ length`; on the reference "ab1" it
reports 2 classes, depth 36 and 36 ^ 3 = 46656 combinations. -/
theorem C8_profile :
    (∀ s : List Char,
      (classCounts s).normal = s.countP (fun c => c ∈ c_normal) ∧
      (classCounts s).capital = s.countP (fun c => c ∈ c_capital) ∧
      (classCounts s).number = s.countP (fun c => c ∈ c_number) ∧
      (classCounts s).special = s.countP
        (fun c => c ∉ c_normal ∧ c ∉ c_capital ∧ c ∉ c_number) ∧
      class_count s =
        (if ∃ c ∈ s, c ∈ c_number then 1 else 0) +
        (if ∃ c ∈ s, c ∈ c_normal then 1 else 0) +
        (if ∃ c ∈ s, c ∈ c_capital then 1 else 0) +
        (if ∃ c ∈ s, c ∉ c_normal ∧ c ∉ c_capital ∧ c ∉ c_number
         then 1 else 0) ∧
      class_depth s =
        10 * (if ∃ c ∈ s, c ∈ c_number then 1 else 0) +
        26 * (if ∃ c ∈ s, c ∈ c_normal then 1 else 0) +
        26 * (if ∃ c ∈ s, c ∈ c_capital then 1 else 0) +
        33 * (if ∃ c ∈ s, c ∉ c_normal ∧ c ∉ c_capital ∧ c ∉ c_number
              then 1 else 0) ∧
      combinations s = class_depth s ^ s.length) ∧
    class_count ['a', 'b', '1'] = 2 ∧
    class_depth ['a', 'b', '1'] = 36 ∧
    combinations ['a', 'b', '1'] = 46656 ∧
    combinations ['a', 'b', '1'] = 36 ^ 3 := by
  refine ⟨fun s => ?_, by decide, by decide, by decide, by decide⟩
  have hc := classCounts_spec s
  refine ⟨by rw [hc], ?_, ?_, by rw [hc], ?_, ?_, rfl⟩
  · rw [hc]
    exact countP_capital_simp s
  · rw [hc]
    exact countP_number_simp s
  · unfold class_count
    rw [hc]
    simp only [countP_capital_simp, countP_number_simp]
    simp only [List.countP_pos_iff, decide_eq_true_eq]
  · unfold class_depth
    rw [hc]
    simp only [countP_capital_simp, countP_number_simp]
    simp only [List.countP_pos_iff, decide_eq_true_eq]
    norm_num [c_number, c_normal, c_capital]

end PwTrainer
